import Mathlib

/-!
# Verification of the `trie-ts` persistent trie (src/lib/trie.ts)

We give a shallow embedding of the trie implementation.  Words are `List Char`
(the source splits a JS string into its characters).  A JS `Record<string, Trie>`
of children is embedded as an insertion-ordered association list
`List (Char × Trie)`: property lookup finds the (unique) matching key, property
assignment replaces the value in place or appends a fresh key at the end, and
`delete` removes the entry.  The `parent`/`char`/`root` fields of the source are
navigational back-references used only inside `remove`'s upward pruning walk; the
value-level embedding below expresses that walk as the recursion `removeAux`,
which returns `none` exactly when the imperative walk deletes the node from its
parent.  A second, heap-level embedding (with explicit allocation and in-place
mutation, including the parent pointers) appears further down and is used for the
immutability / frame property.
-/

namespace TrieTs

/-- Trie node from src/lib/trie.ts: `endOfWord` flag, the cached `word`
(present on terminal nodes; JS object spreads can leave a stale `word` on a
non-terminal node, hence an `Option` that is not tied to the flag), and the
children record. -/
inductive Trie where
  | mk (endOfWord : Bool) (word : Option (List Char)) (children : List (Char × Trie))

/-- The `endOfWord` field. -/
def Trie.endOfWord : Trie → Bool
  | .mk e _ _ => e

/-- The cached `word` field (`none` when the JS object has no `word` property). -/
def Trie.word : Trie → Option (List Char)
  | .mk _ w _ => w

/-- The `children` record, in JS property-insertion order. -/
def Trie.children : Trie → List (Char × Trie)
  | .mk _ _ cs => cs

@[simp] theorem Trie.endOfWord_mk (e : Bool) (w : Option (List Char))
    (cs : List (Char × Trie)) : (Trie.mk e w cs).endOfWord = e := rfl

@[simp] theorem Trie.word_mk (e : Bool) (w : Option (List Char))
    (cs : List (Char × Trie)) : (Trie.mk e w cs).word = w := rfl

@[simp] theorem Trie.children_mk (e : Bool) (w : Option (List Char))
    (cs : List (Char × Trie)) : (Trie.mk e w cs).children = cs := rfl

/-- JS property read `obj[c]`: the value at the (first) matching key. -/
def lookupChild : List (Char × Trie) → Char → Option Trie
  | [], _ => none
  | (c, t) :: rest, k => if c = k then some t else lookupChild rest k

/-- JS property write `obj[c] = v` / `{...obj, [c]: v}`: replace the value at an
existing key in place, otherwise append the new key at the end. -/
def setChild : List (Char × Trie) → Char → Trie → List (Char × Trie)
  | [], k, v => [(k, v)]
  | (c, t) :: rest, k, v =>
    if c = k then (c, v) :: rest else (c, t) :: setChild rest k v

/-- JS `delete obj[c]`: remove the entry at the key. -/
def delChild : List (Char × Trie) → Char → List (Char × Trie)
  | [], _ => []
  | (c, t) :: rest, k => if c = k then rest else (c, t) :: delChild rest k

/-- `emptyTrie` from the source: non-terminal root with no children. -/
def emptyTrie : Trie := .mk false none []

/-- `has(word, trie)`: follow the characters of `word`; true exactly when the
walk ends at a node with `endOfWord` set. -/
def has : List Char → Trie → Bool
  | [], t => t.endOfWord
  | c :: cs, t =>
    match lookupChild t.children c with
    | none => false
    | some child => has cs child

/-- `hasPrefix(word, trie)`: walking down `word`, return true at the first
terminal node encountered (including before consuming any character). -/
def hasPrefix : List Char → Trie → Bool
  | w, t =>
    if t.endOfWord then true
    else
      match w with
      | [] => false
      | c :: cs =>
        match lookupChild t.children c with
        | none => false
        | some child => hasPrefix cs child

mutual
/-- `getWords` via `forEach`: the cached word of every terminal node of the
subtree, parent before children, children in record order. -/
def getWords : Trie → List (List Char)
  | .mk e w cs => (if e then [w.getD []] else []) ++ getWordsList cs

/-- `forEach` over the children record, in order. -/
def getWordsList : List (Char × Trie) → List (List Char)
  | [] => []
  | (_, t) :: rest => getWords t ++ getWordsList rest
end

/-- `search(query, trie)`: descend along `query`, then collect the words of the
subtree; empty when the path cannot be followed. -/
def search : List Char → Trie → List (List Char)
  | [], t => getWords t
  | c :: cs, t =>
    match lookupChild t.children c with
    | none => []
    | some child => search cs child

/-- The `reduce` inside `add`: clone down the path of the remaining suffix,
creating missing children, and mark the node at the last character terminal
with the full inserted word. -/
def addGo (full : List Char) : List Char → Trie → Trie
  | [], t => t
  | [c], .mk e w cs =>
    let child := (lookupChild cs c).getD emptyTrie
    .mk e w (setChild cs c (.mk true (some full) child.children))
  | c :: rest, .mk e w cs =>
    let child := (lookupChild cs c).getD emptyTrie
    .mk e w (setChild cs c (addGo full rest child))

/-- `add(word, trie)`: no-op on the empty word or when the word is already
present, otherwise insert along the path. -/
def add (w : List Char) (t : Trie) : Trie :=
  if w = [] ∨ has w t = true then t else addGo w w t

/-- The part of `remove` below the root for the remaining suffix.  `none` means
the imperative code deletes this (cloned) node out of its parent's record:
that happens exactly when, after handling the suffix, the node has no children
left and is not terminal.  At the end of the walk a node that still has
children is rewritten with `endOfWord := false` — the object spread keeps the
stale `word` field. -/
def removeAux : List Char → Trie → Option Trie
  | [], t =>
    if t.children.isEmpty then none
    else some (.mk false t.word t.children)
  | c :: cs, t =>
    match lookupChild t.children c with
    | none => some t
    | some child =>
      match removeAux cs child with
      | some child' => some (.mk t.endOfWord t.word (setChild t.children c child'))
      | none =>
        let rest := delChild t.children c
        if rest.isEmpty && !t.endOfWord then none
        else some (.mk t.endOfWord t.word rest)

/-- `remove(word, trie)`: no-op on the empty word; otherwise walk down the word,
aborting unchanged when a child is missing; the upward pruning walk stops at
the root, which is never deleted and never rewritten. -/
def remove (w : List Char) (t : Trie) : Trie :=
  match w with
  | [] => t
  | c :: cs =>
    match lookupChild t.children c with
    | none => t
    | some child =>
      match removeAux cs child with
      | some child' => .mk t.endOfWord t.word (setChild t.children c child')
      | none => .mk t.endOfWord t.word (delChild t.children c)

/-- `fromList(words)`: fold `add` over the empty trie in list order. -/
def fromList (ws : List (List Char)) : Trie :=
  ws.foldl (fun t w => add w t) emptyTrie

/-- `of(firstWord, ...words)`: the source inserts the rest first and the first
argument last (`[...words, firstWord].reduce(...)`). -/
def of (first : List Char) (rest : List (List Char)) : Trie :=
  (rest ++ [first]).foldl (fun t w => add w t) emptyTrie

/-- Tries reachable from `emptyTrie` through the public constructors:
`fromList` and `of` are folds of `add`, so every value the library hands out is
covered by these three rules. -/
inductive Built : Trie → Prop where
  | empty : Built emptyTrie
  | add (w : List Char) (t : Trie) : Built t → Built (add w t)
  | remove (w : List Char) (t : Trie) : Built t → Built (remove w t)

mutual
/-- Key uniqueness, everywhere in the tree.  A JS object cannot hold the same
property key twice, so every trie value of the source language satisfies this;
it is the only fact about "being a JS record" that the proofs below need. -/
def wfT : Trie → Bool
  | .mk _ _ cs => wfL cs

/-- Key uniqueness of one children record, plus well-formedness of each child. -/
def wfL : List (Char × Trie) → Bool
  | [] => true
  | (c, t) :: rest => (lookupChild rest c).isNone && wfT t && wfL rest
end

mutual
/-- No non-root garbage node: every node strictly below the root is terminal or
has a child, recursively (§3 invariant of the spec). -/
def prunedT : Trie → Bool
  | .mk e _ cs => (e || !cs.isEmpty) && prunedL cs

/-- `prunedT` for every entry of a children record. -/
def prunedL : List (Char × Trie) → Bool
  | [] => true
  | (_, t) :: rest => prunedT t && prunedL rest
end

/-- The root itself is exempt (the empty trie is a childless non-terminal root),
so the invariant starts at its children. -/
def prunedRoot (t : Trie) : Bool := prunedL t.children

mutual
/-- Cached words are correct: on the subtree sitting at path `p` from the root,
every terminal node's `word` equals the full path from the root to it. -/
def wordsOkT : List Char → Trie → Bool
  | p, .mk e w cs => (if e then decide (w = some p) else true) && wordsOkL p cs

/-- `wordsOkT` for every entry of a children record at path `p`. -/
def wordsOkL : List Char → List (Char × Trie) → Bool
  | _, [] => true
  | p, (c, t) :: rest => wordsOkT (p ++ [c]) t && wordsOkL p rest
end

/-! ## Association-list (JS record) lemmas -/

theorem lookupChild_setChild_self (cs : List (Char × Trie)) (c : Char) (v : Trie) :
    lookupChild (setChild cs c v) c = some v := by
  induction cs with
  | nil => simp [setChild, lookupChild]
  | cons hd rest ih =>
    obtain ⟨c₀, t₀⟩ := hd
    by_cases h : c₀ = c <;> simp [setChild, lookupChild, h, ih]

theorem lookupChild_setChild_ne (cs : List (Char × Trie)) {c c' : Char} (v : Trie)
    (h : c' ≠ c) : lookupChild (setChild cs c v) c' = lookupChild cs c' := by
  have h' : ¬(c = c') := fun e => h e.symm
  induction cs with
  | nil => simp [setChild, lookupChild, h']
  | cons hd rest ih =>
    obtain ⟨c₀, t₀⟩ := hd
    by_cases h0 : c₀ = c
    · subst h0
      simp [setChild, lookupChild, h']
    · by_cases h1 : c₀ = c' <;> simp [setChild, lookupChild, h0, h1, ih, h]

theorem lookupChild_delChild_ne (cs : List (Char × Trie)) {c c' : Char}
    (h : c' ≠ c) : lookupChild (delChild cs c) c' = lookupChild cs c' := by
  have h' : ¬(c = c') := fun e => h e.symm
  induction cs with
  | nil => simp [delChild]
  | cons hd rest ih =>
    obtain ⟨c₀, t₀⟩ := hd
    by_cases h0 : c₀ = c
    · subst h0
      simp [delChild, lookupChild, h']
    · by_cases h1 : c₀ = c' <;> simp [delChild, lookupChild, h0, h1, ih, h]

theorem lookupChild_delChild_self (cs : List (Char × Trie)) (c : Char)
    (hwf : wfL cs = true) : lookupChild (delChild cs c) c = none := by
  induction cs with
  | nil => simp [delChild, lookupChild]
  | cons hd rest ih =>
    obtain ⟨c₀, t₀⟩ := hd
    simp only [wfL, Bool.and_eq_true, Option.isNone_iff_eq_none] at hwf
    by_cases h0 : c₀ = c
    · subst h0
      simp [delChild, hwf.1.1]
    · simp [delChild, lookupChild, h0, ih hwf.2]

theorem delChild_ne_nil_of_lookup (cs : List (Char × Trie)) {c c' : Char} {u : Trie}
    (h : c' ≠ c) (hl : lookupChild cs c' = some u) : delChild cs c ≠ [] := by
  intro hnil
  have := lookupChild_delChild_ne cs h
  rw [hnil] at this
  simp [lookupChild, hl] at this

theorem wfT_of_lookup {cs : List (Char × Trie)} {c : Char} {u : Trie}
    (hwf : wfL cs = true) (h : lookupChild cs c = some u) : wfT u = true := by
  induction cs with
  | nil => simp [lookupChild] at h
  | cons hd rest ih =>
    obtain ⟨c₀, t₀⟩ := hd
    simp only [wfL, Bool.and_eq_true] at hwf
    by_cases h0 : c₀ = c
    · simp [lookupChild, h0] at h
      exact h ▸ hwf.1.2
    · simp [lookupChild, h0] at h
      exact ih hwf.2 h

theorem wfL_setChild {cs : List (Char × Trie)} {c : Char} {v : Trie}
    (hwf : wfL cs = true) (hv : wfT v = true) : wfL (setChild cs c v) = true := by
  induction cs with
  | nil => simp [setChild, wfL, lookupChild, hv]
  | cons hd rest ih =>
    obtain ⟨c₀, t₀⟩ := hd
    simp only [wfL, Bool.and_eq_true, Option.isNone_iff_eq_none] at hwf
    by_cases h0 : c₀ = c
    · subst h0
      simp [setChild, wfL, hwf.1.1, hv, hwf.2]
    · simp only [setChild, h0, if_false, wfL, Bool.and_eq_true,
        Option.isNone_iff_eq_none]
      refine ⟨⟨?_, hwf.1.2⟩, ih hwf.2⟩
      rw [lookupChild_setChild_ne rest v h0]
      exact hwf.1.1

theorem wfL_delChild {cs : List (Char × Trie)} (c : Char)
    (hwf : wfL cs = true) : wfL (delChild cs c) = true := by
  induction cs with
  | nil => simp [delChild, wfL]
  | cons hd rest ih =>
    obtain ⟨c₀, t₀⟩ := hd
    simp only [wfL, Bool.and_eq_true, Option.isNone_iff_eq_none] at hwf
    by_cases h0 : c₀ = c
    · subst h0
      exact (by simpa [delChild] using hwf.2)
    · simp only [delChild, h0, if_false, wfL, Bool.and_eq_true,
        Option.isNone_iff_eq_none]
      refine ⟨⟨?_, hwf.1.2⟩, ih hwf.2⟩
      by_cases h1 : c₀ = c
      · exact absurd h1 h0
      · rw [lookupChild_delChild_ne rest h0]
        exact hwf.1.1

theorem mem_of_lookupChild {cs : List (Char × Trie)} {c : Char} {u : Trie}
    (h : lookupChild cs c = some u) : (c, u) ∈ cs := by
  induction cs with
  | nil => simp [lookupChild] at h
  | cons hd rest ih =>
    obtain ⟨c₀, t₀⟩ := hd
    by_cases h0 : c₀ = c
    · simp [lookupChild, h0] at h
      simp [h0, h]
    · simp [lookupChild, h0] at h
      exact List.mem_cons_of_mem _ (ih h)

theorem lookupChild_of_mem {cs : List (Char × Trie)} {c : Char} {u : Trie}
    (hwf : wfL cs = true) (h : (c, u) ∈ cs) : lookupChild cs c = some u := by
  induction cs with
  | nil => simp at h
  | cons hd rest ih =>
    obtain ⟨c₀, t₀⟩ := hd
    simp only [wfL, Bool.and_eq_true, Option.isNone_iff_eq_none] at hwf
    rcases List.mem_cons.mp h with h | h
    · obtain ⟨h1, h2⟩ := Prod.mk.injEq .. ▸ h
      simp [lookupChild, h1, h2]
    · by_cases h0 : c₀ = c
      · subst h0
        have := ih hwf.2 h
        rw [hwf.1.1] at this
        exact absurd this (by simp)
      · simp [lookupChild, h0]
        exact ih hwf.2 h

/-! ## Behaviour of `add` on `has` -/

theorem has_nil (t : Trie) : has [] t = t.endOfWord := by
  cases t; rfl

theorem has_cons (c : Char) (cs : List Char) (e : Bool) (w : Option (List Char))
    (ch : List (Char × Trie)) :
    has (c :: cs) (.mk e w ch) =
      match lookupChild ch c with
      | none => false
      | some child => has cs child := rfl

/-- Inserting a non-empty suffix along the path adds exactly that suffix to the
words recognised below the current node: the core of `add`'s contract. -/
theorem has_addGo (full : List Char) :
    ∀ (suffix : List Char) (t : Trie) (v : List Char), suffix ≠ [] →
      (has v (addGo full suffix t) = true ↔ has v t = true ∨ v = suffix) := by
  intro suffix
  induction suffix with
  | nil => intro t v h; exact absurd rfl h
  | cons c rest ih =>
    intro t v _
    obtain ⟨e, w, cs⟩ := t
    cases rest with
    | nil =>
      -- last character: the child is rewritten terminal
      simp only [addGo]
      cases v with
      | nil => simp [has_nil, Trie.endOfWord]
      | cons v₀ v' =>
        by_cases hv : v₀ = c
        · subst hv
          rw [has_cons, has_cons, lookupChild_setChild_self]
          cases v' with
          | nil =>
            simp [has_nil, Trie.endOfWord]
          | cons v₁ v'' =>
            cases hch : lookupChild cs v₀ with
            | none =>
              simp [hch, has_cons, Option.getD, emptyTrie, Trie.children,
                lookupChild]
            | some child =>
              obtain ⟨e₁, w₁, cs₁⟩ := child
              simp [hch, has_cons, Option.getD, Trie.children]
        · rw [has_cons, has_cons, lookupChild_setChild_ne _ _ hv]
          simp [hv]
    | cons c₂ rest₂ =>
      simp only [addGo]
      cases v with
      | nil => simp [has_nil, Trie.endOfWord]
      | cons v₀ v' =>
        by_cases hv : v₀ = c
        · subst hv
          rw [has_cons, has_cons, lookupChild_setChild_self]
          cases hch : lookupChild cs v₀ with
          | none =>
            rw [ih _ _ (by simp)]
            simp [hch, has_nil, has_cons, emptyTrie, Trie.children, Trie.endOfWord,
              lookupChild]
            intro h
            cases v' with
            | nil => simp [has_nil, emptyTrie, Trie.endOfWord] at h
            | cons a b => simp [has_cons, emptyTrie, Trie.children, lookupChild] at h
          | some child =>
            rw [ih _ _ (by simp)]
            simp [hch]
        · rw [has_cons, has_cons, lookupChild_setChild_ne _ _ hv]
          simp [hv]

/-- C2 at the level of `add`: for every trie and non-empty word, membership
after `add w` is membership before, or equality with `w`. -/
theorem has_add (w : List Char) (t : Trie) (v : List Char) (hw : w ≠ []) :
    has v (add w t) = true ↔ has v t = true ∨ v = w := by
  unfold add
  by_cases hg : w = [] ∨ has w t = true
  · rw [if_pos hg]
    rcases hg with hg | hg
    · exact absurd hg hw
    · constructor
      · exact Or.inl
      · rintro (h | rfl)
        · exact h
        · exact hg
  · rw [if_neg hg]
    exact has_addGo w w t v hw

/-! ## Behaviour of `remove` on `has` -/

/-- When the pruning walk deletes a whole subtree (`removeAux = none`), the only
word that subtree could recognise was the removed suffix itself. -/
theorem removeAux_none :
    ∀ (cs : List Char) (t : Trie), removeAux cs t = none →
      ∀ v, has v t = true → v = cs := by
  intro cs
  induction cs with
  | nil =>
    intro t hnone v hv
    obtain ⟨e, w, ch⟩ := t
    by_cases hch : ch.isEmpty
    · cases v with
      | nil => rfl
      | cons v₀ v' =>
        rw [List.isEmpty_iff] at hch
        subst hch
        simp [has_cons, lookupChild] at hv
    · simp [removeAux, hch] at hnone
  | cons c cs' ih =>
    intro t hnone v hv
    obtain ⟨e, w, ch⟩ := t
    cases hl : lookupChild ch c with
    | none => simp [removeAux, hl] at hnone
    | some child =>
      cases hrec : removeAux cs' child with
      | some child' => simp [removeAux, hl, hrec] at hnone
      | none =>
        simp only [removeAux, Trie.children_mk, Trie.endOfWord_mk, Trie.word_mk,
          hl, hrec] at hnone
        by_cases hguard : (delChild ch c).isEmpty && !e
        · simp only [Bool.and_eq_true, Bool.not_eq_true',
            List.isEmpty_iff] at hguard
          cases v with
          | nil =>
            rw [has_nil] at hv
            simp [hguard.2] at hv
          | cons v₀ v' =>
            by_cases hv0 : v₀ = c
            · subst hv0
              rw [has_cons, hl] at hv
              rw [ih child hrec v' hv]
            · rw [has_cons] at hv
              cases hl' : lookupChild ch v₀ with
              | none => rw [hl'] at hv; simp at hv
              | some u =>
                exact absurd hguard.1
                  (delChild_ne_nil_of_lookup ch hv0 hl')
        · simp [hguard] at hnone

/-- When the walk returns a replacement subtree, that subtree recognises
exactly the previous words minus the removed suffix. -/
theorem removeAux_some :
    ∀ (cs : List Char) (t t' : Trie), wfT t = true → removeAux cs t = some t' →
      ∀ v, (has v t' = true ↔ has v t = true ∧ v ≠ cs) := by
  intro cs
  induction cs with
  | nil =>
    intro t t' _ hsome v
    obtain ⟨e, w, ch⟩ := t
    by_cases hch : ch.isEmpty
    · simp [removeAux, hch] at hsome
    · simp only [removeAux, Trie.children_mk, Trie.word_mk, hch, Bool.false_eq_true,
        if_false, Option.some.injEq] at hsome
      subst hsome
      cases v with
      | nil => simp [has_nil]
      | cons v₀ v' => simp [has_cons]
  | cons c cs' ih =>
    intro t t' hwf hsome v
    obtain ⟨e, w, ch⟩ := t
    have hwfl : wfL ch = true := hwf
    cases hl : lookupChild ch c with
    | none =>
      simp only [removeAux, Trie.children_mk, hl, Option.some.injEq] at hsome
      subst hsome
      constructor
      · intro hv
        refine ⟨hv, ?_⟩
        rintro rfl
        rw [has_cons, hl] at hv
        exact Bool.false_ne_true hv
      · exact And.left
    | some child =>
      have hwfc : wfT child = true := wfT_of_lookup hwfl hl
      cases hrec : removeAux cs' child with
      | some child' =>
        simp only [removeAux, Trie.children_mk, Trie.endOfWord_mk, Trie.word_mk,
          hl, hrec, Option.some.injEq] at hsome
        subst hsome
        cases v with
        | nil => simp [has_nil]
        | cons v₀ v' =>
          by_cases hv0 : v₀ = c
          · subst hv0
            rw [has_cons, has_cons, hl, lookupChild_setChild_self]
            rw [ih child child' hwfc hrec v']
            simp
          · rw [has_cons, has_cons, lookupChild_setChild_ne _ _ hv0]
            simp [hv0]
      | none =>
        simp only [removeAux, Trie.children_mk, Trie.endOfWord_mk, Trie.word_mk,
          hl, hrec] at hsome
        by_cases hguard : (delChild ch c).isEmpty && !e
        · simp [hguard] at hsome
        · simp only [hguard, Bool.false_eq_true, if_false,
            Option.some.injEq] at hsome
          subst hsome
          cases v with
          | nil => simp [has_nil]
          | cons v₀ v' =>
            by_cases hv0 : v₀ = c
            · subst hv0
              rw [has_cons, has_cons, hl, lookupChild_delChild_self ch _ hwfl]
              simp only [Bool.false_eq_true, false_iff, not_and, ne_eq, not_not]
              intro hv
              have := removeAux_none cs' child hrec v' hv
              subst this
              simp
            · rw [has_cons, has_cons, lookupChild_delChild_ne ch hv0]
              simp [hv0]

/-- C3 at the level of `remove`: membership after `remove w` is membership
before minus `w`, for non-empty `w` and well-keyed `t`. -/
theorem has_remove (w : List Char) (t : Trie) (v : List Char) (hwf : wfT t = true)
    (hw : w ≠ []) : has v (remove w t) = true ↔ has v t = true ∧ v ≠ w := by
  obtain ⟨e, wd, ch⟩ := t
  have hwfl : wfL ch = true := hwf
  cases w with
  | nil => exact absurd rfl hw
  | cons c cs =>
    cases hl : lookupChild ch c with
    | none =>
      simp only [remove, Trie.children_mk, hl]
      constructor
      · intro hv
        refine ⟨hv, ?_⟩
        rintro rfl
        rw [has_cons, hl] at hv
        exact Bool.false_ne_true hv
      · exact And.left
    | some child =>
      have hwfc : wfT child = true := wfT_of_lookup hwfl hl
      cases hrec : removeAux cs child with
      | some child' =>
        simp only [remove, Trie.children_mk, Trie.endOfWord_mk, Trie.word_mk,
          hl, hrec]
        cases v with
        | nil => simp [has_nil]
        | cons v₀ v' =>
          by_cases hv0 : v₀ = c
          · subst hv0
            rw [has_cons, has_cons, hl, lookupChild_setChild_self]
            rw [removeAux_some cs child child' hwfc hrec v']
            simp
          · rw [has_cons, has_cons, lookupChild_setChild_ne _ _ hv0]
            simp [hv0]
      | none =>
        simp only [remove, Trie.children_mk, Trie.endOfWord_mk, Trie.word_mk,
          hl, hrec]
        cases v with
        | nil => simp [has_nil]
        | cons v₀ v' =>
          by_cases hv0 : v₀ = c
          · subst hv0
            rw [has_cons, has_cons, hl, lookupChild_delChild_self ch _ hwfl]
            simp only [Bool.false_eq_true, false_iff, not_and, ne_eq, not_not]
            intro hv
            have := removeAux_none cs child hrec v' hv
            subst this
            simp
          · rw [has_cons, has_cons, lookupChild_delChild_ne ch hv0]
            simp [hv0]

/-! ## Preservation of key uniqueness -/

theorem wfL_children_getD {cs : List (Char × Trie)} (c : Char)
    (hwf : wfL cs = true) : wfL ((lookupChild cs c).getD emptyTrie).children = true := by
  cases hl : lookupChild cs c with
  | none => simp [emptyTrie, wfL]
  | some child =>
    have := wfT_of_lookup hwf hl
    obtain ⟨e₁, w₁, cs₁⟩ := child
    simpa [wfT] using this

theorem wfT_getD {cs : List (Char × Trie)} (c : Char) (hwf : wfL cs = true) :
    wfT ((lookupChild cs c).getD emptyTrie) = true := by
  cases hl : lookupChild cs c with
  | none => rfl
  | some child => simpa using wfT_of_lookup hwf hl

theorem wfT_addGo (full : List Char) :
    ∀ (suffix : List Char) (t : Trie), wfT t = true →
      wfT (addGo full suffix t) = true := by
  intro suffix
  induction suffix with
  | nil => intro t h; exact h
  | cons c rest ih =>
    intro t hwf
    obtain ⟨e, w, cs⟩ := t
    have hwfl : wfL cs = true := hwf
    cases rest with
    | nil =>
      exact wfL_setChild hwfl (wfL_children_getD c hwfl)
    | cons c₂ rest₂ =>
      exact wfL_setChild hwfl (ih _ (wfT_getD c hwfl))

theorem wfT_add (w : List Char) (t : Trie) (hwf : wfT t = true) :
    wfT (add w t) = true := by
  unfold add
  by_cases hg : w = [] ∨ has w t = true
  · rw [if_pos hg]; exact hwf
  · rw [if_neg hg]; exact wfT_addGo w w t hwf

theorem wfT_removeAux :
    ∀ (cs : List Char) (t t' : Trie), wfT t = true → removeAux cs t = some t' →
      wfT t' = true := by
  intro cs
  induction cs with
  | nil =>
    intro t t' hwf hsome
    obtain ⟨e, w, ch⟩ := t
    by_cases hch : ch.isEmpty
    · simp [removeAux, hch] at hsome
    · simp only [removeAux, Trie.children_mk, Trie.word_mk, hch, Bool.false_eq_true,
        if_false, Option.some.injEq] at hsome
      subst hsome
      exact hwf
  | cons c cs' ih =>
    intro t t' hwf hsome
    obtain ⟨e, w, ch⟩ := t
    have hwfl : wfL ch = true := hwf
    cases hl : lookupChild ch c with
    | none =>
      simp only [removeAux, Trie.children_mk, hl, Option.some.injEq] at hsome
      subst hsome
      exact hwf
    | some child =>
      have hwfc : wfT child = true := wfT_of_lookup hwfl hl
      cases hrec : removeAux cs' child with
      | some child' =>
        simp only [removeAux, Trie.children_mk, Trie.endOfWord_mk, Trie.word_mk,
          hl, hrec, Option.some.injEq] at hsome
        subst hsome
        exact wfL_setChild hwfl (ih child child' hwfc hrec)
      | none =>
        simp only [removeAux, Trie.children_mk, Trie.endOfWord_mk, Trie.word_mk,
          hl, hrec] at hsome
        by_cases hguard : (delChild ch c).isEmpty && !e
        · simp [hguard] at hsome
        · simp only [hguard, Bool.false_eq_true, if_false,
            Option.some.injEq] at hsome
          subst hsome
          exact wfL_delChild c hwfl

theorem wfT_remove (w : List Char) (t : Trie) (hwf : wfT t = true) :
    wfT (remove w t) = true := by
  obtain ⟨e, wd, ch⟩ := t
  have hwfl : wfL ch = true := hwf
  cases w with
  | nil => exact hwf
  | cons c cs =>
    cases hl : lookupChild ch c with
    | none => simp only [remove, Trie.children_mk, hl]; exact hwf
    | some child =>
      have hwfc : wfT child = true := wfT_of_lookup hwfl hl
      cases hrec : removeAux cs child with
      | some child' =>
        simp only [remove, Trie.children_mk, Trie.endOfWord_mk, Trie.word_mk, hl, hrec]
        exact wfL_setChild hwfl (wfT_removeAux cs child child' hwfc hrec)
      | none =>
        simp only [remove, Trie.children_mk, Trie.endOfWord_mk, Trie.word_mk, hl, hrec]
        exact wfL_delChild c hwfl

/-- Every trie produced by the public API has unique keys in every children
record (it is a JS object). -/
theorem built_wf {t : Trie} (h : Built t) : wfT t = true := by
  induction h with
  | empty => rfl
  | add w t _ ih => exact wfT_add w t ih
  | remove w t _ ih => exact wfT_remove w t ih

/-! ## The root's terminal flag is never set -/

theorem endOfWord_addGo (full : List Char) :
    ∀ (suffix : List Char) (t : Trie), (addGo full suffix t).endOfWord = t.endOfWord := by
  intro suffix t
  obtain ⟨e, w, cs⟩ := t
  cases suffix with
  | nil => rfl
  | cons c rest => cases rest with
    | nil => rfl
    | cons c₂ rest₂ => rfl

theorem endOfWord_add (w : List Char) (t : Trie) :
    (add w t).endOfWord = t.endOfWord := by
  unfold add
  by_cases hg : w = [] ∨ has w t = true
  · rw [if_pos hg]
  · rw [if_neg hg]; exact endOfWord_addGo w w t

theorem endOfWord_remove (w : List Char) (t : Trie) :
    (remove w t).endOfWord = t.endOfWord := by
  obtain ⟨e, wd, ch⟩ := t
  cases w with
  | nil => rfl
  | cons c cs =>
    cases hl : lookupChild ch c with
    | none => simp [remove, hl]
    | some child =>
      cases hrec : removeAux cs child with
      | some child' => simp [remove, hl, hrec]
      | none => simp [remove, hl, hrec]

theorem built_endOfWord {t : Trie} (h : Built t) : t.endOfWord = false := by
  induction h with
  | empty => rfl
  | add w t _ ih => rw [endOfWord_add]; exact ih
  | remove w t _ ih => rw [endOfWord_remove]; exact ih

/-! ## The no-garbage (pruning) invariant -/

theorem prunedT_iff (t : Trie) :
    prunedT t = ((t.endOfWord || !t.children.isEmpty) && prunedL t.children) := by
  cases t; rfl

theorem prunedT_of_lookup {cs : List (Char × Trie)} {c : Char} {u : Trie}
    (hp : prunedL cs = true) (h : lookupChild cs c = some u) : prunedT u = true := by
  induction cs with
  | nil => simp [lookupChild] at h
  | cons hd rest ih =>
    obtain ⟨c₀, t₀⟩ := hd
    simp only [prunedL, Bool.and_eq_true] at hp
    by_cases h0 : c₀ = c
    · simp [lookupChild, h0] at h
      exact h ▸ hp.1
    · simp [lookupChild, h0] at h
      exact ih hp.2 h

theorem prunedL_setChild {cs : List (Char × Trie)} {c : Char} {v : Trie}
    (hp : prunedL cs = true) (hv : prunedT v = true) :
    prunedL (setChild cs c v) = true := by
  induction cs with
  | nil => simp [setChild, prunedL, hv]
  | cons hd rest ih =>
    obtain ⟨c₀, t₀⟩ := hd
    simp only [prunedL, Bool.and_eq_true] at hp
    by_cases h0 : c₀ = c
    · simp [setChild, h0, prunedL, hv, hp.2]
    · simp only [setChild, h0, if_false, prunedL, Bool.and_eq_true]
      exact ⟨hp.1, ih hp.2⟩

theorem prunedL_delChild {cs : List (Char × Trie)} (c : Char)
    (hp : prunedL cs = true) : prunedL (delChild cs c) = true := by
  induction cs with
  | nil => simp [delChild, prunedL]
  | cons hd rest ih =>
    obtain ⟨c₀, t₀⟩ := hd
    simp only [prunedL, Bool.and_eq_true] at hp
    by_cases h0 : c₀ = c
    · simpa [delChild, h0] using hp.2
    · simp only [delChild, h0, if_false, prunedL, Bool.and_eq_true]
      exact ⟨hp.1, ih hp.2⟩

theorem setChild_ne_nil (cs : List (Char × Trie)) (c : Char) (v : Trie) :
    setChild cs c v ≠ [] := by
  cases cs with
  | nil => simp [setChild]
  | cons hd rest =>
    obtain ⟨c₀, t₀⟩ := hd
    by_cases h0 : c₀ = c <;> simp [setChild, h0]

theorem prunedL_children_getD {cs : List (Char × Trie)} (c : Char)
    (hp : prunedL cs = true) :
    prunedL ((lookupChild cs c).getD emptyTrie).children = true := by
  cases hl : lookupChild cs c with
  | none => rfl
  | some child =>
    have := prunedT_of_lookup hp hl
    rw [prunedT_iff, Bool.and_eq_true] at this
    simpa using this.2

theorem prunedL_addGo (full : List Char) :
    ∀ (suffix : List Char) (t : Trie), suffix ≠ [] → prunedL t.children = true →
      prunedL (addGo full suffix t).children = true ∧
        (addGo full suffix t).children ≠ [] := by
  intro suffix
  induction suffix with
  | nil => intro t h; exact absurd rfl h
  | cons c rest ih =>
    intro t _ hp
    obtain ⟨e, w, cs⟩ := t
    simp only [Trie.children_mk] at hp
    cases rest with
    | nil =>
      refine ⟨?_, setChild_ne_nil cs c _⟩
      refine prunedL_setChild hp ?_
      rw [prunedT_iff, Bool.and_eq_true]
      exact ⟨by simp, prunedL_children_getD c hp⟩
    | cons c₂ rest₂ =>
      refine ⟨?_, setChild_ne_nil cs c _⟩
      obtain ⟨ih1, ih2⟩ := ih ((lookupChild cs c).getD emptyTrie) (by simp)
        (prunedL_children_getD c hp)
      refine prunedL_setChild hp ?_
      rw [prunedT_iff, Bool.and_eq_true]
      refine ⟨?_, ih1⟩
      simp [List.isEmpty_iff, ih2]

theorem prunedRoot_add (w : List Char) (t : Trie) (hp : prunedRoot t = true) :
    prunedRoot (add w t) = true := by
  unfold add
  by_cases hg : w = [] ∨ has w t = true
  · rw [if_pos hg]; exact hp
  · rw [if_neg hg]
    have hw : w ≠ [] := fun h => hg (Or.inl h)
    exact (prunedL_addGo w w t hw hp).1

theorem prunedT_removeAux :
    ∀ (cs : List Char) (t t' : Trie), prunedT t = true → removeAux cs t = some t' →
      prunedT t' = true := by
  intro cs
  induction cs with
  | nil =>
    intro t t' hp hsome
    obtain ⟨e, w, ch⟩ := t
    by_cases hch : ch.isEmpty
    · simp [removeAux, hch] at hsome
    · simp only [removeAux, Trie.children_mk, Trie.word_mk, hch, Bool.false_eq_true,
        if_false, Option.some.injEq] at hsome
      subst hsome
      rw [prunedT_iff, Bool.and_eq_true] at hp ⊢
      simp only [Trie.endOfWord_mk, Trie.children_mk, hch] at hp ⊢
      exact ⟨by simp, hp.2⟩
  | cons c cs' ih =>
    intro t t' hp hsome
    obtain ⟨e, w, ch⟩ := t
    rw [prunedT_iff, Bool.and_eq_true] at hp
    simp only [Trie.endOfWord_mk, Trie.children_mk] at hp
    cases hl : lookupChild ch c with
    | none =>
      simp only [removeAux, Trie.children_mk, hl, Option.some.injEq] at hsome
      subst hsome
      rw [prunedT_iff, Bool.and_eq_true]
      exact ⟨hp.1, hp.2⟩
    | some child =>
      have hpc : prunedT child = true := prunedT_of_lookup hp.2 hl
      cases hrec : removeAux cs' child with
      | some child' =>
        simp only [removeAux, Trie.children_mk, Trie.endOfWord_mk, Trie.word_mk,
          hl, hrec, Option.some.injEq] at hsome
        subst hsome
        rw [prunedT_iff, Bool.and_eq_true]
        refine ⟨?_, prunedL_setChild hp.2 (ih child child' hpc hrec)⟩
        simp [List.isEmpty_iff, setChild_ne_nil ch c child']
      | none =>
        simp only [removeAux, Trie.children_mk, Trie.endOfWord_mk, Trie.word_mk,
          hl, hrec] at hsome
        by_cases hguard : (delChild ch c).isEmpty && !e
        · simp [hguard] at hsome
        · simp only [hguard, Bool.false_eq_true, if_false,
            Option.some.injEq] at hsome
          subst hsome
          rw [prunedT_iff, Bool.and_eq_true]
          refine ⟨?_, prunedL_delChild c hp.2⟩
          simp only [Bool.and_eq_true, Bool.not_eq_true'] at hguard
          cases e with
          | true => simp
          | false =>
            cases hde : (delChild ch c).isEmpty with
            | true => exact absurd ⟨hde, rfl⟩ hguard
            | false => simp [hde]

theorem prunedRoot_remove (w : List Char) (t : Trie) (hp : prunedRoot t = true) :
    prunedRoot (remove w t) = true := by
  obtain ⟨e, wd, ch⟩ := t
  have hpl : prunedL ch = true := hp
  cases w with
  | nil => exact hp
  | cons c cs =>
    cases hl : lookupChild ch c with
    | none => simp only [remove, Trie.children_mk, hl]; exact hp
    | some child =>
      have hpc : prunedT child = true := prunedT_of_lookup hpl hl
      cases hrec : removeAux cs child with
      | some child' =>
        simp only [remove, Trie.children_mk, Trie.endOfWord_mk, Trie.word_mk, hl, hrec]
        exact prunedL_setChild hpl (prunedT_removeAux cs child child' hpc hrec)
      | none =>
        simp only [remove, Trie.children_mk, Trie.endOfWord_mk, Trie.word_mk, hl, hrec]
        exact prunedL_delChild c hpl

/-- Every trie produced by the public API satisfies the no-garbage invariant:
no non-root node is simultaneously non-terminal and childless. -/
theorem built_pruned {t : Trie} (h : Built t) : prunedRoot t = true := by
  induction h with
  | empty => rfl
  | add w t _ ih => exact prunedRoot_add w t ih
  | remove w t _ ih => exact prunedRoot_remove w t ih

/-! ## The cached-word invariant -/

theorem wordsOkT_iff (p : List Char) (t : Trie) :
    wordsOkT p t =
      ((if t.endOfWord then decide (t.word = some p) else true) && wordsOkL p t.children) := by
  cases t; rfl

theorem wordsOkT_of_lookup {p : List Char} {cs : List (Char × Trie)} {c : Char}
    {u : Trie} (hq : wordsOkL p cs = true) (h : lookupChild cs c = some u) :
    wordsOkT (p ++ [c]) u = true := by
  induction cs with
  | nil => simp [lookupChild] at h
  | cons hd rest ih =>
    obtain ⟨c₀, t₀⟩ := hd
    simp only [wordsOkL, Bool.and_eq_true] at hq
    by_cases h0 : c₀ = c
    · simp [lookupChild, h0] at h
      subst h0
      exact h ▸ hq.1
    · simp [lookupChild, h0] at h
      exact ih hq.2 h

theorem wordsOkL_setChild {p : List Char} {cs : List (Char × Trie)} {c : Char}
    {v : Trie} (hq : wordsOkL p cs = true) (hv : wordsOkT (p ++ [c]) v = true) :
    wordsOkL p (setChild cs c v) = true := by
  induction cs with
  | nil => simp [setChild, wordsOkL, hv]
  | cons hd rest ih =>
    obtain ⟨c₀, t₀⟩ := hd
    simp only [wordsOkL, Bool.and_eq_true] at hq
    by_cases h0 : c₀ = c
    · subst h0
      simp only [setChild, if_pos rfl, wordsOkL, Bool.and_eq_true]
      exact ⟨hv, hq.2⟩
    · simp only [setChild, h0, if_false, wordsOkL, Bool.and_eq_true]
      exact ⟨hq.1, ih hq.2⟩

theorem wordsOkL_delChild {p : List Char} {cs : List (Char × Trie)} (c : Char)
    (hq : wordsOkL p cs = true) : wordsOkL p (delChild cs c) = true := by
  induction cs with
  | nil => simp [delChild, wordsOkL]
  | cons hd rest ih =>
    obtain ⟨c₀, t₀⟩ := hd
    simp only [wordsOkL, Bool.and_eq_true] at hq
    by_cases h0 : c₀ = c
    · simpa [delChild, h0] using hq.2
    · simp only [delChild, h0, if_false, wordsOkL, Bool.and_eq_true]
      exact ⟨hq.1, ih hq.2⟩

theorem wordsOkL_children_getD {p : List Char} {cs : List (Char × Trie)} (c : Char)
    (hq : wordsOkL p cs = true) :
    wordsOkL (p ++ [c]) ((lookupChild cs c).getD emptyTrie).children = true := by
  cases hl : lookupChild cs c with
  | none => rfl
  | some child =>
    have := wordsOkT_of_lookup hq hl
    rw [wordsOkT_iff, Bool.and_eq_true] at this
    simpa using this.2

theorem wordsOkT_getD {p : List Char} {cs : List (Char × Trie)} (c : Char)
    (hq : wordsOkL p cs = true) :
    wordsOkT (p ++ [c]) ((lookupChild cs c).getD emptyTrie) = true := by
  cases hl : lookupChild cs c with
  | none => rfl
  | some child => simpa using wordsOkT_of_lookup hq hl

theorem wordsOkT_addGo (full : List Char) :
    ∀ (suffix : List Char) (t : Trie) (p : List Char), suffix ≠ [] →
      p ++ suffix = full → wordsOkT p t = true →
      wordsOkT p (addGo full suffix t) = true := by
  intro suffix
  induction suffix with
  | nil => intro t p h; exact absurd rfl h
  | cons c rest ih =>
    intro t p _ hfull hq
    obtain ⟨e, w, cs⟩ := t
    rw [wordsOkT_iff, Bool.and_eq_true] at hq
    simp only [Trie.endOfWord_mk, Trie.word_mk, Trie.children_mk] at hq
    cases rest with
    | nil =>
      rw [wordsOkT_iff, Bool.and_eq_true]
      refine ⟨hq.1, ?_⟩
      refine wordsOkL_setChild hq.2 ?_
      rw [wordsOkT_iff, Bool.and_eq_true]
      constructor
      · subst hfull
        simp
      · simpa using wordsOkL_children_getD c hq.2
    | cons c₂ rest₂ =>
      rw [wordsOkT_iff, Bool.and_eq_true]
      refine ⟨hq.1, ?_⟩
      refine wordsOkL_setChild hq.2 ?_
      refine ih _ _ (by simp) ?_ (wordsOkT_getD c hq.2)
      simpa using hfull

theorem wordsOkT_add (w : List Char) (t : Trie) (hq : wordsOkT [] t = true) :
    wordsOkT [] (add w t) = true := by
  unfold add
  by_cases hg : w = [] ∨ has w t = true
  · rw [if_pos hg]; exact hq
  · rw [if_neg hg]
    have hw : w ≠ [] := fun h => hg (Or.inl h)
    exact wordsOkT_addGo w w t [] hw rfl hq

theorem wordsOkT_removeAux :
    ∀ (cs : List Char) (t t' : Trie) (p : List Char), removeAux cs t = some t' →
      wordsOkT p t = true → wordsOkT p t' = true := by
  intro cs
  induction cs with
  | nil =>
    intro t t' p hsome hq
    obtain ⟨e, w, ch⟩ := t
    by_cases hch : ch.isEmpty
    · simp [removeAux, hch] at hsome
    · simp only [removeAux, Trie.children_mk, Trie.word_mk, hch, Bool.false_eq_true,
        if_false, Option.some.injEq] at hsome
      subst hsome
      rw [wordsOkT_iff, Bool.and_eq_true] at hq ⊢
      simp only [Trie.endOfWord_mk, Trie.word_mk, Trie.children_mk] at hq ⊢
      exact ⟨by simp, hq.2⟩
  | cons c cs' ih =>
    intro t t' p hsome hq
    obtain ⟨e, w, ch⟩ := t
    rw [wordsOkT_iff, Bool.and_eq_true] at hq
    simp only [Trie.endOfWord_mk, Trie.word_mk, Trie.children_mk] at hq
    cases hl : lookupChild ch c with
    | none =>
      simp only [removeAux, Trie.children_mk, hl, Option.some.injEq] at hsome
      subst hsome
      rw [wordsOkT_iff, Bool.and_eq_true]
      exact ⟨hq.1, hq.2⟩
    | some child =>
      have hqc := wordsOkT_of_lookup hq.2 hl
      cases hrec : removeAux cs' child with
      | some child' =>
        simp only [removeAux, Trie.children_mk, Trie.endOfWord_mk, Trie.word_mk,
          hl, hrec, Option.some.injEq] at hsome
        subst hsome
        rw [wordsOkT_iff, Bool.and_eq_true]
        refine ⟨hq.1, ?_⟩
        simp only [Trie.children_mk]
        exact wordsOkL_setChild hq.2 (ih child child' (p ++ [c]) hrec hqc)
      | none =>
        simp only [removeAux, Trie.children_mk, Trie.endOfWord_mk, Trie.word_mk,
          hl, hrec] at hsome
        by_cases hguard : (delChild ch c).isEmpty && !e
        · simp [hguard] at hsome
        · simp only [hguard, Bool.false_eq_true, if_false,
            Option.some.injEq] at hsome
          subst hsome
          rw [wordsOkT_iff, Bool.and_eq_true]
          refine ⟨hq.1, ?_⟩
          simp only [Trie.children_mk]
          exact wordsOkL_delChild c hq.2

theorem wordsOkT_remove (w : List Char) (t : Trie) (hq : wordsOkT [] t = true) :
    wordsOkT [] (remove w t) = true := by
  obtain ⟨e, wd, ch⟩ := t
  rw [wordsOkT_iff, Bool.and_eq_true] at hq
  simp only [Trie.endOfWord_mk, Trie.word_mk, Trie.children_mk] at hq
  cases w with
  | nil =>
    rw [wordsOkT_iff, Bool.and_eq_true]
    exact ⟨hq.1, hq.2⟩
  | cons c cs =>
    cases hl : lookupChild ch c with
    | none =>
      simp only [remove, Trie.children_mk, hl]
      rw [wordsOkT_iff, Bool.and_eq_true]
      exact ⟨hq.1, hq.2⟩
    | some child =>
      have hqc := wordsOkT_of_lookup hq.2 hl
      cases hrec : removeAux cs child with
      | some child' =>
        simp only [remove, Trie.children_mk, Trie.endOfWord_mk, Trie.word_mk, hl, hrec]
        rw [wordsOkT_iff, Bool.and_eq_true]
        refine ⟨hq.1, ?_⟩
        simp only [Trie.children_mk]
        exact wordsOkL_setChild hq.2 (wordsOkT_removeAux cs child child' ([] ++ [c]) hrec hqc)
      | none =>
        simp only [remove, Trie.children_mk, Trie.endOfWord_mk, Trie.word_mk, hl, hrec]
        rw [wordsOkT_iff, Bool.and_eq_true]
        refine ⟨hq.1, ?_⟩
        simp only [Trie.children_mk]
        exact wordsOkL_delChild c hq.2

/-- Every trie produced by the public API has correct cached words: a node with
`endOfWord = true` carries exactly the concatenation of the edge characters
from the root to it. -/
theorem built_wordsOk {t : Trie} (h : Built t) : wordsOkT [] t = true := by
  induction h with
  | empty => rfl
  | add w t _ ih => exact wordsOkT_add w t ih
  | remove w t _ ih => exact wordsOkT_remove w t ih

/-! ## Characterisation of `getWords` and `search` -/

/-- Structural induction over the nested `Trie` type: to prove `P` everywhere
it suffices to prove it at a node assuming it for every child. -/
theorem trieInduction {P : Trie → Prop}
    (h : ∀ e w cs, (∀ c u, (c, u) ∈ cs → P u) → P (.mk e w cs)) : ∀ t, P t
  | .mk e w cs => h e w cs (fun c u hu => trieInduction h u)
termination_by t => sizeOf t
decreasing_by
  have h1 := List.sizeOf_lt_of_mem hu
  simp at h1 ⊢
  omega

theorem mem_getWordsList (v : List Char) :
    ∀ cs : List (Char × Trie),
      (v ∈ getWordsList cs ↔ ∃ c u, (c, u) ∈ cs ∧ v ∈ getWords u) := by
  intro cs
  induction cs with
  | nil => simp [getWordsList]
  | cons hd rest ih =>
    obtain ⟨c₀, t₀⟩ := hd
    simp only [getWordsList, List.mem_append, ih]
    constructor
    · rintro (hv | ⟨c, u, hmem, hv⟩)
      · exact ⟨c₀, t₀, by simp, hv⟩
      · exact ⟨c, u, List.mem_cons_of_mem _ hmem, hv⟩
    · rintro ⟨c, u, hmem, hv⟩
      rcases List.mem_cons.mp hmem with heq | hmem
      · obtain ⟨h1, h2⟩ := Prod.mk.injEq .. ▸ heq
        exact Or.inl (h2 ▸ hv)
      · exact Or.inr ⟨c, u, hmem, hv⟩

/-- On a well-formed subtree sitting at path `p`, the collected cached words are
exactly `p ++ s` for the suffixes `s` recognised by `has`. -/
theorem mem_getWords (v : List Char) (t : Trie) :
    ∀ p, wfT t = true → wordsOkT p t = true →
      (v ∈ getWords t ↔ ∃ s, v = p ++ s ∧ has s t = true) := by
  induction t using trieInduction with
  | h e w cs ih =>
    intro p hwf hq
    have hwfl : wfL cs = true := hwf
    rw [wordsOkT_iff, Bool.and_eq_true] at hq
    simp only [Trie.endOfWord_mk, Trie.word_mk, Trie.children_mk] at hq
    simp only [getWords, List.mem_append, mem_getWordsList]
    constructor
    · rintro (hv | ⟨c, u, hmem, hv⟩)
      · rcases he : e with _ | _
        · rw [he] at hv; simp at hv
        · rw [he] at hv
          simp only [if_true, List.mem_singleton] at hv
          refine ⟨[], ?_, by simp [has_nil, he]⟩
          have hw : w = some p := by
            have := hq.1
            rw [he, if_pos rfl] at this
            exact of_decide_eq_true this
          simp [hv, hw]
      · have hlu : lookupChild cs c = some u := lookupChild_of_mem hwfl hmem
        have hwfu : wfT u = true := wfT_of_lookup hwfl hlu
        have hqu : wordsOkT (p ++ [c]) u = true := wordsOkT_of_lookup hq.2 hlu
        obtain ⟨s', hs1, hs2⟩ := (ih c u hmem (p ++ [c]) hwfu hqu).mp hv
        refine ⟨c :: s', ?_, ?_⟩
        · simp [hs1]
        · rw [has_cons, hlu]
          exact hs2
    · rintro ⟨s, hvs, hhas⟩
      cases s with
      | nil =>
        rw [has_nil, Trie.endOfWord_mk] at hhas
        left
        rw [hhas, if_pos rfl]
        have hw : w = some p := by
          have := hq.1
          rw [hhas, if_pos rfl] at this
          exact of_decide_eq_true this
        simp [hvs, hw]
      | cons c s' =>
        rw [has_cons] at hhas
        cases hlu : lookupChild cs c with
        | none => rw [hlu] at hhas; simp at hhas
        | some u =>
          rw [hlu] at hhas
          have hmem : (c, u) ∈ cs := mem_of_lookupChild hlu
          have hwfu : wfT u = true := wfT_of_lookup hwfl hlu
          have hqu : wordsOkT (p ++ [c]) u = true := wordsOkT_of_lookup hq.2 hlu
          right
          refine ⟨c, u, hmem, (ih c u hmem (p ++ [c]) hwfu hqu).mpr ⟨s', ?_, hhas⟩⟩
          simp [hvs]

/-- `search q` on a well-formed subtree at path `p` returns exactly the words
`p ++ s` with `q` a prefix of `s` and `s` recognised below the node. -/
theorem mem_search (v : List Char) :
    ∀ (q : List Char) (t : Trie) (p : List Char), wfT t = true →
      wordsOkT p t = true →
      (v ∈ search q t ↔ ∃ s, v = p ++ s ∧ q <+: s ∧ has s t = true) := by
  intro q
  induction q with
  | nil =>
    intro t p hwf hq
    simp only [search, mem_getWords v t p hwf hq]
    constructor
    · rintro ⟨s, h1, h2⟩
      exact ⟨s, h1, List.nil_prefix, h2⟩
    · rintro ⟨s, h1, _, h2⟩
      exact ⟨s, h1, h2⟩
  | cons c q' ih =>
    intro t p hwf hq
    obtain ⟨e, w, cs⟩ := t
    have hwfl : wfL cs = true := hwf
    rw [wordsOkT_iff, Bool.and_eq_true] at hq
    simp only [Trie.endOfWord_mk, Trie.word_mk, Trie.children_mk] at hq
    cases hlu : lookupChild cs c with
    | none =>
      simp only [search, Trie.children_mk, hlu]
      simp only [List.not_mem_nil, false_iff, not_exists, not_and]
      rintro s rfl hpre
      cases s with
      | nil => simp [List.prefix_nil] at hpre
      | cons c₀ s' =>
        obtain ⟨rfl, -⟩ := List.cons_prefix_cons.mp hpre
        rw [has_cons, hlu]
        simp
    | some u =>
      have hwfu : wfT u = true := wfT_of_lookup hwfl hlu
      have hqu : wordsOkT (p ++ [c]) u = true := wordsOkT_of_lookup hq.2 hlu
      simp only [search, Trie.children_mk, hlu]
      rw [ih u (p ++ [c]) hwfu hqu]
      constructor
      · rintro ⟨s', h1, h2, h3⟩
        refine ⟨c :: s', by simp [h1], ?_, ?_⟩
        · exact List.cons_prefix_cons.mpr ⟨rfl, h2⟩
        · rw [has_cons, hlu]; exact h3
      · rintro ⟨s, h1, h2, h3⟩
        cases s with
        | nil => simp [List.prefix_nil] at h2
        | cons c₀ s' =>
          obtain ⟨rfl, hpre⟩ := List.cons_prefix_cons.mp h2
          rw [has_cons, hlu] at h3
          exact ⟨s', by simp [h1], hpre, h3⟩

/-! ## Characterisation of `hasPrefix` -/

/-- `hasPrefix w t` holds exactly when some word recognised by the trie is a
prefix of `w` (including `w` itself). -/
theorem hasPrefix_spec :
    ∀ (w : List Char) (t : Trie),
      (hasPrefix w t = true ↔ ∃ v, v <+: w ∧ has v t = true) := by
  intro w
  induction w with
  | nil =>
    intro t
    obtain ⟨e, wd, cs⟩ := t
    cases e with
    | true =>
      simp only [hasPrefix, Trie.endOfWord_mk, if_true, true_iff]
      exact ⟨[], List.nil_prefix, rfl⟩
    | false =>
      simp only [hasPrefix, Trie.endOfWord_mk, Bool.false_eq_true, if_false]
      simp only [Bool.false_eq_true, false_iff, not_exists, not_and]
      rintro v hv
      rw [List.prefix_nil] at hv
      subst hv
      simp [has_nil]
  | cons c cs ih =>
    intro t
    obtain ⟨e, wd, ch⟩ := t
    cases e with
    | true =>
      simp only [hasPrefix, Trie.endOfWord_mk, if_true, true_iff]
      exact ⟨[], List.nil_prefix, rfl⟩
    | false =>
      simp only [hasPrefix, Trie.endOfWord_mk, Bool.false_eq_true, if_false,
        Trie.children_mk]
      cases hlu : lookupChild ch c with
      | none =>
        simp only [Bool.false_eq_true, false_iff, not_exists, not_and]
        rintro v hv
        cases v with
        | nil => simp [has_nil]
        | cons v₀ v' =>
          obtain ⟨rfl, -⟩ := List.cons_prefix_cons.mp hv
          rw [has_cons, hlu]
          simp
      | some child =>
        rw [ih child]
        constructor
        · rintro ⟨v', h1, h2⟩
          refine ⟨c :: v', List.cons_prefix_cons.mpr ⟨rfl, h1⟩, ?_⟩
          rw [has_cons, hlu]
          exact h2
        · rintro ⟨v, h1, h2⟩
          cases v with
          | nil => rw [has_nil] at h2; simp at h2
          | cons v₀ v' =>
            obtain ⟨rfl, hpre⟩ := List.cons_prefix_cons.mp h1
            rw [has_cons, hlu] at h2
            exact ⟨v', hpre, h2⟩

/-! ## The public constructors produce `Built` tries -/

theorem built_foldl (ws : List (List Char)) :
    ∀ t, Built t → Built (ws.foldl (fun t w => add w t) t) := by
  induction ws with
  | nil => intro t h; exact h
  | cons w ws ih => intro t h; exact ih _ (Built.add w t h)

theorem built_fromList (ws : List (List Char)) : Built (fromList ws) :=
  built_foldl ws emptyTrie Built.empty

theorem built_of (first : List Char) (rest : List (List Char)) :
    Built (of first rest) :=
  built_foldl (rest ++ [first]) emptyTrie Built.empty

/-- The trie of the spec's worked example: `of("hello", "hello world", "world")`. -/
def trieHHW : Trie :=
  of "hello".toList ["hello world".toList, "world".toList]

/-- The trie `remove("a", of("a", "aa"))` of the deletion-branch example. -/
def trieA : Trie := remove "a".toList (of "a".toList ["aa".toList])

/-- The trie `remove("bbb", of("b", "bbb"))` of the pruning example. -/
def trieB : Trie := remove "bbb".toList (of "b".toList ["bbb".toList])

/-! ## Claim theorems (value-level claims) -/

theorem add_of_mem (w : List Char) (t : Trie) (h : w = [] ∨ has w t = true) :
    add w t = t := by
  unfold add
  rw [if_pos h]

/-- C2: for every non-empty word `w` and every trie `t`, the trie `add w t`
recognises exactly the words of `t` plus `w`: `has v (add w t)` holds iff
`has v t` holds or `v = w`. -/
theorem claim2_add_contract (w : List Char) (t : Trie) (v : List Char)
    (hw : w ≠ []) : has v (add w t) = true ↔ has v t = true ∨ v = w :=
  has_add w t v hw

theorem claim2_add_contract_witness :
    ("ab".toList ≠ []) ∧
      (has "a".toList (add "ab".toList emptyTrie) = true ↔
        has "a".toList emptyTrie = true ∨ "a".toList = "ab".toList) :=
  ⟨by decide, claim2_add_contract "ab".toList emptyTrie "a".toList (by decide)⟩

/-- C3: for every non-empty `w` and every trie `t` (with the unique-key
property every JS object has), `remove w t` recognises exactly the words of
`t` except `w`; removing the empty word returns `t` unchanged.  In particular
deleting `"a"` from `of("a", "aa")` keeps `"aa"` and drops `"a"`. -/
theorem claim3_remove_contract (w : List Char) (t : Trie) (v : List Char)
    (hwf : wfT t = true) :
    (w ≠ [] → (has v (remove w t) = true ↔ has v t = true ∧ v ≠ w)) ∧
      remove [] t = t ∧
      has "aa".toList trieA = true ∧ has "a".toList trieA = false :=
  ⟨fun hw => has_remove w t v hwf hw, rfl, by decide, by decide⟩

theorem claim3_remove_contract_witness :
    (wfT (add "a".toList emptyTrie) = true) ∧
      ("a".toList ≠ [] →
        (has "a".toList (remove "a".toList (add "a".toList emptyTrie)) = true ↔
          has "a".toList (add "a".toList emptyTrie) = true ∧
            "a".toList ≠ "a".toList)) :=
  ⟨by decide,
    (claim3_remove_contract "a".toList (add "a".toList emptyTrie) "a".toList
      (by decide)).1⟩

/-- C4: on every trie the public API can produce, `search q t` contains exactly
the stored words having `q` as a prefix; on the worked example the three
queries return the exact lists of the spec. -/
theorem claim4_search_correct :
    (∀ t, Built t → ∀ q v, (v ∈ search q t ↔ has v t = true ∧ q <+: v)) ∧
      search "hello".toList trieHHW = ["hello".toList, "hello world".toList] ∧
      search "help".toList trieHHW = [] ∧
      search [] trieHHW =
        ["hello".toList, "hello world".toList, "world".toList] := by
  refine ⟨?_, by decide, by decide, by decide⟩
  intro t h q v
  rw [mem_search v q t [] (built_wf h) (built_wordsOk h)]
  constructor
  · rintro ⟨s, rfl, h2, h3⟩
    simpa using ⟨h3, h2⟩
  · rintro ⟨h1, h2⟩
    exact ⟨v, by simp, h2, h1⟩

theorem claim4_search_correct_witness :
    Built trieHHW ∧
      ("hello".toList ∈ search "hel".toList trieHHW ↔
        has "hello".toList trieHHW = true ∧ "hel".toList <+: "hello".toList) :=
  ⟨built_of _ _,
    claim4_search_correct.1 trieHHW (built_of _ _) "hel".toList "hello".toList⟩

/-- C5: `hasPrefix w t` holds iff some stored word of `t` is a prefix of `w`;
in particular `hasPrefix "hell"` fails and `hasPrefix "hello world"` succeeds
on the trie of `"hello"`. -/
theorem claim5_hasPrefix_correct :
    (∀ (w : List Char) (t : Trie),
        (hasPrefix w t = true ↔ ∃ v, v <+: w ∧ has v t = true)) ∧
      hasPrefix "hell".toList (of "hello".toList []) = false ∧
      hasPrefix "hello world".toList (of "hello".toList []) = true :=
  ⟨hasPrefix_spec, by decide, by decide⟩

/-- C6 (counterexample): inserting the empty string is a no-op — `add "" t`
returns the trie unchanged, the root does not become terminal, and the
insert/has round trip fails at `w = ""`. -/
theorem claim6_counterexample :
    has [] (add [] emptyTrie) = false ∧ add [] emptyTrie = emptyTrie ∧
      (add [] emptyTrie).endOfWord = false :=
  ⟨rfl, rfl, rfl⟩

/-- C6 (amended): the insert/has round trip holds for every non-empty word,
and inserting the empty string returns the input trie unchanged (the root is
never made terminal). -/
theorem claim6_roundtrip_amended (w : List Char) (hw : w ≠ []) :
    has w (add w emptyTrie) = true ∧ ∀ t, add [] t = t :=
  ⟨(has_add w emptyTrie w hw).mpr (Or.inr rfl), fun _ => rfl⟩

theorem claim6_roundtrip_amended_witness :
    ("a".toList ≠ []) ∧
      (has "a".toList (add "a".toList emptyTrie) = true ∧
        ∀ t, add [] t = t) :=
  ⟨by decide, claim6_roundtrip_amended "a".toList (by decide)⟩

/-- C7: every trie the public API can produce satisfies the no-garbage
invariant (no reachable non-root node is both non-terminal and childless); in
particular `remove "bbb" (of "b" "bbb")` retains only the `"b"` node, with no
dangling `"bb"` chain below it. -/
theorem claim7_no_garbage (t : Trie) (h : Built t) :
    prunedRoot t = true ∧
      (lookupChild trieB.children 'b').map Trie.children = some [] :=
  ⟨built_pruned h, rfl⟩

theorem claim7_no_garbage_witness :
    Built trieB ∧ prunedRoot trieB = true :=
  ⟨Built.remove _ _ (built_of _ _), (claim7_no_garbage trieB (Built.remove _ _ (built_of _ _))).1⟩

/-- C8 (counterexample): after `remove "a" (of "a" "aa")` the node at `'a'`
has `endOfWord = false` yet still carries the stale value `"a"` — the object
spread in `remove` does not clear the `word` field, so the claimed
"terminal flag iff carries a stored value" equivalence fails on a trie
returned by the public operations. -/
theorem claim8_counterexample :
    (lookupChild trieA.children 'a').map Trie.endOfWord = some false ∧
      (lookupChild trieA.children 'a').map Trie.word = some (some "a".toList) :=
  ⟨rfl, rfl⟩

/-- C8 (amended): in every trie the public API can produce, a node with the
terminal flag set carries a value equal to the concatenation of the edge
characters from the root (the converse fails: deleting a word that is a
prefix of other stored words rewrites its node with `endOfWord = false` but
retains the stale, never-observed value field). -/
theorem claim8_cached_words_amended (t : Trie) (h : Built t) :
    wordsOkT [] t = true :=
  built_wordsOk h

theorem claim8_cached_words_amended_witness :
    Built trieA ∧ wordsOkT [] trieA = true :=
  ⟨Built.remove _ _ (built_of _ _),
    claim8_cached_words_amended trieA (Built.remove _ _ (built_of _ _))⟩

/-- C9: `add` returns the input trie itself when the word is empty or already
present, and is therefore idempotent as a plain equation on trie values. -/
theorem claim9_add_idempotent (w : List Char) (t : Trie) :
    ((w = [] ∨ has w t = true) → add w t = t) ∧ add w (add w t) = add w t := by
  refine ⟨add_of_mem w t, ?_⟩
  by_cases hg : w = [] ∨ has w t = true
  · rw [add_of_mem w t hg]
    exact add_of_mem w t hg
  · have hw : w ≠ [] := fun h => hg (Or.inl h)
    have h2 : has w (add w t) = true := (has_add w t w hw).mpr (Or.inr rfl)
    exact add_of_mem w (add w t) (Or.inr h2)

theorem claim9_add_idempotent_witness :
    add [] emptyTrie = emptyTrie ∧
      add "a".toList (add "a".toList emptyTrie) = add "a".toList emptyTrie :=
  ⟨(claim9_add_idempotent [] emptyTrie).1 (Or.inl rfl),
    (claim9_add_idempotent "a".toList emptyTrie).2⟩

/-- C10: the root of every trie the public API can produce is non-terminal,
so the empty string is never recognised. -/
theorem claim10_root_not_terminal (t : Trie) (h : Built t) :
    t.endOfWord = false ∧ has [] t = false := by
  refine ⟨built_endOfWord h, ?_⟩
  rw [has_nil]
  exact built_endOfWord h

theorem claim10_root_not_terminal_witness :
    Built trieHHW ∧
      (trieHHW.endOfWord = false ∧ has [] trieHHW = false) :=
  ⟨built_of _ _, claim10_root_not_terminal trieHHW (built_of _ _)⟩

/-! ## Heap-level embedding: allocation and in-place mutation made explicit

The value-level model above cannot express the difference between "returns a
logically equal trie" and "never touches the caller's objects".  The claims
about immutability are about the JS heap, so we re-embed `add` and `remove`
at that level: a `Node` is a JS object with all its runtime fields (including
the `parent`/`char` back-references and the `root` flag that the value-level
model elides), a `Heap` is the list of allocated objects, object creation
(`{...}` literals, spreads, `copyTrie`) is `alloc`, and property assignment is
`setN`.  The frame theorem then states that neither operation ever writes to
an address that existed before the call. -/

/-- A runtime trie object: flag, cached word, children record (values are
heap addresses), the `parent` back-reference paired with the edge `char`, and
the `root` discriminant. -/
structure Node where
  endOfWord : Bool
  word : Option (List Char)
  children : List (Char × Nat)
  parent : Option (Nat × Char)
  root : Bool

/-- The heap: objects addressed by allocation order. -/
abbrev Heap := List Node

/-- Placeholder for a read through a dangling reference (never reachable under
the closed-heap hypothesis of the theorems). -/
def defaultNode : Node := ⟨false, none, [], none, true⟩

/-- Read the object at address `a`. -/
def getN (h : Heap) (a : Nat) : Option Node := h[a]?

/-- Overwrite the object at address `a` (in-place mutation of a JS object). -/
def setN (h : Heap) (a : Nat) (n : Node) : Heap := h.set a n

/-- Allocate a fresh object, returning its address. -/
def alloc (h : Heap) (n : Node) : Nat × Heap := (h.length, h ++ [n])

/-- `obj[c]` on a children record of addresses. -/
def lookupRef : List (Char × Nat) → Char → Option Nat
  | [], _ => none
  | (c, b) :: rest, k => if c = k then some b else lookupRef rest k

/-- `obj[c] = b` on a children record of addresses. -/
def setRef : List (Char × Nat) → Char → Nat → List (Char × Nat)
  | [], k, b => [(k, b)]
  | (c, b₀) :: rest, k, b =>
    if c = k then (c, b) :: rest else (c, b₀) :: setRef rest k b

/-- `delete obj[c]` on a children record of addresses. -/
def delRef : List (Char × Nat) → Char → List (Char × Nat)
  | [], _ => []
  | (c, b₀) :: rest, k => if c = k then rest else (c, b₀) :: delRef rest k

/-- `copyTrie` at heap level: allocate a fresh object with the same fields
(the children record is copied by value here, as the spread copies the map). -/
def cloneN (h : Heap) (a : Nat) : Nat × Heap :=
  alloc h ((getN h a).getD defaultNode)

/-- `has` reading through the heap. -/
def hasH : List Char → Nat → Heap → Bool
  | v, a, h =>
    match getN h a with
    | none => false
    | some n =>
      match v with
      | [] => n.endOfWord
      | c :: cs =>
        match lookupRef n.children c with
        | none => false
        | some b => hasH cs b h

mutual
/-- `getWords` reading through the heap; `fuel` bounds the traversal depth
(any fuel larger than the tree's height reproduces the source's recursion). -/
def getWordsH : Nat → Nat → Heap → List (List Char)
  | 0, _, _ => []
  | fuel + 1, a, h =>
    match getN h a with
    | none => []
    | some n =>
      (if n.endOfWord then [n.word.getD []] else []) ++
        getWordsListH fuel n.children h
  termination_by fuel _ _ => (fuel, 0)

/-- `forEach` over a children record of addresses. -/
def getWordsListH : Nat → List (Char × Nat) → Heap → List (List Char)
  | _, [], _ => []
  | fuel, (_, b) :: rest, h => getWordsH fuel b h ++ getWordsListH fuel rest h
  termination_by fuel cs _ => (fuel, cs.length + 1)
end

/-- `search` reading through the heap. -/
def searchH (fuel : Nat) : List Char → Nat → Heap → List (List Char)
  | [], a, h => getWordsH fuel a h
  | c :: cs, a, h =>
    match getN h a with
    | none => []
    | some n =>
      match lookupRef n.children c with
      | none => []
      | some b => searchH fuel cs b h

/-- `emptyWithParent(trie, char)` as an object literal. -/
def emptyWithParentN (a : Nat) (c : Char) : Node :=
  ⟨false, none, [], some (a, c), false⟩

/-- `obj.children[c] = b` (or the equivalent spread re-assignment): in-place
update of the children record of the object at address `a`. -/
def setChildRefAt (h : Heap) (a : Nat) (c : Char) (b : Nat) : Heap :=
  match getN h a with
  | some n => setN h a { n with children := setRef n.children c b }
  | none => h

/-- `delete obj.children[c]`: in-place deletion in the children record of the
object at address `a`. -/
def delChildRefAt (h : Heap) (a : Nat) (c : Char) : Heap :=
  match getN h a with
  | some n => setN h a { n with children := delRef n.children c }
  | none => h

/-- The `reduce` of `add` on the heap: at each character, build the child
object (clone of the existing child, or a fresh empty node linked to the
current clone), on the last character build the terminal spread of it, then
assign it into the current clone's children record and continue from it. -/
def addGoH (full : List Char) : List Char → Nat → Heap → Heap
  | [], _, h => h
  | c :: rest, cur, h =>
    let childSrc : Node :=
      match (getN h cur).bind (fun n => lookupRef n.children c) with
      | some b => (getN h b).getD defaultNode
      | none => emptyWithParentN cur c
    let alloc₁ := alloc h childSrc
    let alloc₂ :=
      if rest.isEmpty then
        alloc alloc₁.2 { childSrc with endOfWord := true, word := some full }
      else alloc₁
    addGoH full rest alloc₂.1 (setChildRefAt alloc₂.2 cur c alloc₂.1)

/-- `add` on the heap: no-op guard, clone of the root, then the walk. -/
def addH (w : List Char) (a : Nat) (h : Heap) : Nat × Heap :=
  if w = [] ∨ hasH w a h = true then (a, h)
  else
    let rh := cloneN h a
    (rh.1, addGoH w w rh.1 rh.2)

/-- The downward walk of `remove`: clone each visited child, link it to the
cloned parent through the `parent`/`char`/`root` fields, assign it in place
over the parent's children record, and continue; `none` when a child is
missing (the word was absent). -/
def removeWalkH : List Char → Nat → Heap → Option Nat × Heap
  | [], node, h => (some node, h)
  | c :: cs, node, h =>
    match (getN h node).bind (fun n => lookupRef n.children c) with
    | none => (none, h)
    | some childA =>
      let childSrc := (getN h childA).getD defaultNode
      let nc := alloc h { childSrc with parent := some (node, c), root := false }
      removeWalkH cs nc.1 (setChildRefAt nc.2 node c nc.1)

/-- The `while (node.root === false)` pruning loop of `remove`, with fuel (the
parent chain built by the walk is exactly as long as the word, so the caller's
fuel always suffices; none of the theorems depend on that). -/
def removeLoopH : Nat → Nat → Heap → Heap
  | 0, _, h => h
  | fuel + 1, node, h =>
    match getN h node with
    | none => h
    | some n =>
      if n.root then h
      else
        let h₁ :=
          if n.children.isEmpty ∧ n.endOfWord = false then
            match n.parent with
            | some (p, pc) => delChildRefAt h p pc
            | none => h
          else h
        match n.parent with
        | some (p, _) => removeLoopH fuel p h₁
        | none => h₁

/-- The end phase of `remove` after the walk: rewrite a non-root terminal node
that still has children (a fresh spread with `endOfWord := false`, assigned
under the last character), otherwise detach a childless non-root node from its
parent and run the upward pruning loop. -/
def removeEndH (lastChar : Char) (node : Nat) (h : Heap) (fuel : Nat) : Heap :=
  match getN h node with
  | none => h
  | some n =>
    if !n.children.isEmpty ∧ n.root = false then
      match n.parent with
      | some (p, _) =>
        let nn := alloc h { n with endOfWord := false }
        setChildRefAt nn.2 p lastChar nn.1
      | none => h
    else
      let start :=
        if n.children.isEmpty ∧ n.root = false then
          match n.parent with
          | some (p, pc) => (p, delChildRefAt h p pc)
          | none => (node, h)
        else (node, h)
      removeLoopH fuel start.1 start.2

/-- `remove` on the heap: no-op on the empty word, clone the root, walk down,
then the end phase keyed by the last character of the word. -/
def removeH (w : List Char) (a : Nat) (h : Heap) : Nat × Heap :=
  match w with
  | [] => (a, h)
  | c :: cs =>
    let rh := cloneN h a
    match removeWalkH (c :: cs) rh.1 rh.2 with
    | (none, h₂) => (rh.1, h₂)
    | (some node, h₂) =>
      (rh.1, removeEndH (cs.getLastD c) node h₂ (w.length + 1))

/-! ## Heap frame infrastructure -/

/-- `h'` contains `h₀` unchanged: same content at every address of `h₀`. -/
def Extends (h₀ h' : Heap) : Prop :=
  h₀.length ≤ h'.length ∧ ∀ a, a < h₀.length → getN h' a = getN h₀ a

theorem Extends.refl (h : Heap) : Extends h h := ⟨le_refl _, fun _ _ => rfl⟩

theorem Extends.trans {h₀ h₁ h₂ : Heap} (e₁ : Extends h₀ h₁) (e₂ : Extends h₁ h₂) :
    Extends h₀ h₂ :=
  ⟨le_trans e₁.1 e₂.1, fun a ha => (e₂.2 a (lt_of_lt_of_le ha e₁.1)).trans (e₁.2 a ha)⟩

theorem extends_alloc (h : Heap) (n : Node) : Extends h (alloc h n).2 := by
  refine ⟨by simp [alloc], fun a ha => ?_⟩
  simp only [alloc, getN]
  exact List.getElem?_append_left ha

theorem extends_setN_high {h₀ h : Heap} (hx : Extends h₀ h) {a : Nat}
    (ha : h₀.length ≤ a) (n : Node) : Extends h₀ (setN h a n) := by
  refine ⟨by simp [setN]; exact hx.1, fun b hb => ?_⟩
  have hne : a ≠ b := fun e => absurd (e ▸ ha) (not_le.mpr hb)
  simp only [setN, getN]
  rw [List.getElem?_set_ne hne]
  exact hx.2 b hb

theorem extends_setAt {h₀ h : Heap} (hx : Extends h₀ h) {a : Nat}
    (ha : h₀.length ≤ a) (upd : Node → Node) :
    Extends h₀ (match getN h a with
      | some n => setN h a (upd n)
      | none => h) := by
  cases getN h a with
  | none => exact hx
  | some n => exact extends_setN_high hx ha (upd n)

theorem lt_length_of_getN {h : Heap} {a : Nat} {n : Node}
    (hg : getN h a = some n) : a < h.length :=
  (List.getElem?_eq_some.mp hg).1

theorem getN_alloc_new (h : Heap) (n : Node) :
    getN (alloc h n).2 h.length = some n := by
  simp only [alloc, getN]
  exact List.getElem?_concat_length h n

theorem getN_setN_ne {h : Heap} {a b : Nat} (hne : a ≠ b) (n : Node) :
    getN (setN h a n) b = getN h b := by
  simp only [setN, getN]
  exact List.getElem?_set_ne hne

theorem getN_setN_eq {h : Heap} {a : Nat} (ha : a < h.length) (n : Node) :
    getN (setN h a n) a = some n := by
  simp only [setN, getN]
  exact List.getElem?_set_eq_of_lt n ha

/-- Every object allocated at or after the watermark `m` that is not a root
clone carries a parent reference that is also at or after `m`: the clones
created during one operation only link among themselves. -/
def ParentsHigh (m : Nat) (h : Heap) : Prop :=
  ∀ a n, m ≤ a → getN h a = some n → n.root = false →
    ∃ p c, n.parent = some (p, c) ∧ m ≤ p

theorem parentsHigh_init (h : Heap) : ParentsHigh h.length h := by
  intro a n ha hg _
  exact absurd (lt_length_of_getN hg) (not_lt.mpr ha)

theorem parentsHigh_alloc {m : Nat} {h : Heap} (hph : ParentsHigh m h) {n : Node}
    (hn : n.root = false → ∃ p c, n.parent = some (p, c) ∧ m ≤ p) :
    ParentsHigh m (alloc h n).2 := by
  intro a n' ha hg hr
  by_cases hcase : a < h.length
  · rw [(extends_alloc h n).2 a hcase] at hg
    exact hph a n' ha hg hr
  · have hlen : a < h.length + 1 := by
      have := lt_length_of_getN hg
      simpa [alloc] using this
    have haeq : a = h.length := by omega
    subst haeq
    rw [getN_alloc_new h n] at hg
    cases hg
    exact hn hr

theorem parentsHigh_set_children {m : Nat} {h : Heap} (hph : ParentsHigh m h)
    {p : Nat} {pn : Node} (hget : getN h p = some pn) (cs' : List (Char × Nat)) :
    ParentsHigh m (setN h p { pn with children := cs' }) := by
  intro a n' ha hg hr
  by_cases hpa : p = a
  · subst hpa
    rw [getN_setN_eq (lt_length_of_getN hget) _] at hg
    cases hg
    exact hph p pn ha hget hr
  · rw [getN_setN_ne hpa _] at hg
    exact hph a n' ha hg hr

theorem parentsHigh_setAt {m : Nat} {h : Heap} (hph : ParentsHigh m h) (p : Nat)
    (cf : Node → List (Char × Nat)) :
    ParentsHigh m (match getN h p with
      | some pn => setN h p { pn with children := cf pn }
      | none => h) := by
  cases hget : getN h p with
  | none => exact hph
  | some pn => exact parentsHigh_set_children hph hget (cf pn)

/-- All children references stored anywhere in `h` point inside `h`. -/
def ClosedHeap (h : Heap) : Prop :=
  ∀ a n, getN h a = some n → ∀ c b, (c, b) ∈ n.children → b < h.length

theorem mem_of_lookupRef {cs : List (Char × Nat)} {c : Char} {b : Nat}
    (h : lookupRef cs c = some b) : (c, b) ∈ cs := by
  induction cs with
  | nil => simp [lookupRef] at h
  | cons hd rest ih =>
    obtain ⟨c₀, b₀⟩ := hd
    by_cases h0 : c₀ = c
    · simp [lookupRef, h0] at h
      simp [h0, h]
    · simp [lookupRef, h0] at h
      exact List.mem_cons_of_mem _ (ih h)

/-! ## Frame theorems: the operations never write below the watermark -/

theorem extends_setChildRefAt {h₀ h : Heap} (hx : Extends h₀ h) {a : Nat}
    (ha : h₀.length ≤ a) (c : Char) (b : Nat) :
    Extends h₀ (setChildRefAt h a c b) := by
  unfold setChildRefAt
  cases getN h a with
  | none => exact hx
  | some n => exact extends_setN_high hx ha _

theorem extends_delChildRefAt {h₀ h : Heap} (hx : Extends h₀ h) {a : Nat}
    (ha : h₀.length ≤ a) (c : Char) :
    Extends h₀ (delChildRefAt h a c) := by
  unfold delChildRefAt
  cases getN h a with
  | none => exact hx
  | some n => exact extends_setN_high hx ha _

theorem parentsHigh_setChildRefAt {m : Nat} {h : Heap} (hph : ParentsHigh m h)
    (a : Nat) (c : Char) (b : Nat) : ParentsHigh m (setChildRefAt h a c b) := by
  unfold setChildRefAt
  cases hget : getN h a with
  | none => exact hph
  | some n => exact parentsHigh_set_children hph hget _

theorem parentsHigh_delChildRefAt {m : Nat} {h : Heap} (hph : ParentsHigh m h)
    (a : Nat) (c : Char) : ParentsHigh m (delChildRefAt h a c) := by
  unfold delChildRefAt
  cases hget : getN h a with
  | none => exact hph
  | some n => exact parentsHigh_set_children hph hget _

theorem extends_addGoH (full : List Char) :
    ∀ (suffix : List Char) (cur : Nat) (h h₀ : Heap),
      Extends h₀ h → h₀.length ≤ cur →
      Extends h₀ (addGoH full suffix cur h) := by
  intro suffix
  induction suffix with
  | nil => intro cur h h₀ hx _; exact hx
  | cons c rest ih =>
    intro cur h h₀ hx hcur
    rw [addGoH]
    by_cases hrest : rest.isEmpty = true
    · simp only [hrest, if_true]
      refine ih _ _ _ (extends_setChildRefAt ?_ hcur _ _) ?_
      · exact (hx.trans (extends_alloc _ _)).trans (extends_alloc _ _)
      · exact le_trans ((hx.trans (extends_alloc _ _)).1) (le_refl _)
    · simp only [hrest, if_false]
      refine ih _ _ _ (extends_setChildRefAt ?_ hcur _ _) ?_
      · exact hx.trans (extends_alloc _ _)
      · exact hx.1

theorem extends_addH (w : List Char) (a : Nat) (h : Heap) :
    Extends h (addH w a h).2 := by
  unfold addH
  by_cases hg : w = [] ∨ hasH w a h = true
  · rw [if_pos hg]
    exact Extends.refl h
  · rw [if_neg hg]
    exact extends_addGoH w w (cloneN h a).1 (cloneN h a).2 h
      (extends_alloc _ _) (le_refl _)

theorem extends_removeWalkH :
    ∀ (cs : List Char) (node : Nat) (h h₀ : Heap),
      Extends h₀ h → h₀.length ≤ node →
      Extends h₀ (removeWalkH cs node h).2 ∧
        (∀ node', (removeWalkH cs node h).1 = some node' → h₀.length ≤ node') := by
  intro cs
  induction cs with
  | nil =>
    intro node h h₀ hx hnode
    refine ⟨hx, fun node' h' => ?_⟩
    simp only [removeWalkH, Option.some.injEq] at h'
    exact h' ▸ hnode
  | cons c cs' ih =>
    intro node h h₀ hx hnode
    rw [removeWalkH]
    cases (getN h node).bind (fun n => lookupRef n.children c) with
    | none => exact ⟨hx, by simp⟩
    | some childA =>
      refine ih _ _ _ (extends_setChildRefAt ?_ hnode _ _) ?_
      · exact hx.trans (extends_alloc _ _)
      · exact hx.1

theorem length_setChildRefAt (h : Heap) (a : Nat) (c : Char) (b : Nat) :
    (setChildRefAt h a c b).length = h.length := by
  unfold setChildRefAt
  cases getN h a with
  | none => rfl
  | some n => simp [setN]

theorem length_alloc (h : Heap) (n : Node) :
    (alloc h n).2.length = h.length + 1 := by simp [alloc]

theorem parentsHigh_removeWalkH :
    ∀ (cs : List Char) (node : Nat) (h : Heap) (m : Nat),
      ParentsHigh m h → m ≤ node → m ≤ h.length →
      ParentsHigh m (removeWalkH cs node h).2 := by
  intro cs
  induction cs with
  | nil => intro node h m hph _ _; exact hph
  | cons c cs' ih =>
    intro node h m hph hnode hlen
    rw [removeWalkH]
    cases (getN h node).bind (fun n => lookupRef n.children c) with
    | none => exact hph
    | some childA =>
      refine ih _ _ _
        (parentsHigh_setChildRefAt
          (parentsHigh_alloc hph (fun _ => ⟨node, c, rfl, hnode⟩)) _ _ _)
        hlen ?_
      rw [length_setChildRefAt, length_alloc]
      omega

theorem extends_removeLoopH :
    ∀ (fuel node : Nat) (h h₀ : Heap),
      Extends h₀ h → ParentsHigh h₀.length h → h₀.length ≤ node →
      Extends h₀ (removeLoopH fuel node h) := by
  intro fuel
  induction fuel with
  | zero => intro node h h₀ hx _ _; exact hx
  | succ f ih =>
    intro node h h₀ hx hph hnode
    rw [removeLoopH]
    cases hg : getN h node with
    | none => exact hx
    | some n =>
      by_cases hroot : n.root
      · simp only [hroot, if_true]
        exact hx
      · simp only [hroot, Bool.false_eq_true, if_false]
        have hr : n.root = false := by
          cases hn : n.root
          · rfl
          · exact absurd hn hroot
        obtain ⟨p, pc, hpar, hp⟩ := hph node n hnode hg hr
        rw [hpar]
        by_cases hcond : n.children.isEmpty ∧ n.endOfWord = false
        · simp only [hcond, if_pos]
          exact ih p _ h₀ (extends_delChildRefAt hx hp _)
            (parentsHigh_delChildRefAt hph _ _) hp
        · simp only [hcond, if_neg, if_false]
          exact ih p h h₀ hx hph hp

theorem extends_removeEndH (lc : Char) (node : Nat) (h h₀ : Heap) (fuel : Nat)
    (hx : Extends h₀ h) (hph : ParentsHigh h₀.length h)
    (hnode : h₀.length ≤ node) :
    Extends h₀ (removeEndH lc node h fuel) := by
  rw [removeEndH]
  cases hg : getN h node with
  | none => exact hx
  | some n =>
    by_cases hbr : !n.children.isEmpty ∧ n.root = false
    · simp only [hbr, if_pos]
      obtain ⟨p, pc, hpar, hp⟩ := hph node n hnode hg hbr.2
      rw [hpar]
      exact extends_setChildRefAt (hx.trans (extends_alloc _ _)) hp _ _
    · simp only [hbr, if_neg, if_false]
      by_cases hbr2 : n.children.isEmpty ∧ n.root = false
      · simp only [hbr2, if_pos]
        obtain ⟨p, pc, hpar, hp⟩ := hph node n hnode hg hbr2.2
        rw [hpar]
        exact extends_removeLoopH fuel p _ h₀ (extends_delChildRefAt hx hp _)
          (parentsHigh_delChildRefAt hph _ _) hp
      · simp only [hbr2, if_neg, if_false]
        exact extends_removeLoopH fuel node h h₀ hx hph hnode

theorem extends_removeH (w : List Char) (a : Nat) (h : Heap) {n : Node}
    (hr : getN h a = some n) (hroot : n.root = true) :
    Extends h (removeH w a h).2 := by
  cases w with
  | nil => exact Extends.refl h
  | cons c cs =>
    have hx1 : Extends h (cloneN h a).2 := extends_alloc _ _
    have hph1 : ParentsHigh h.length (cloneN h a).2 := by
      unfold cloneN
      refine parentsHigh_alloc (parentsHigh_init h) ?_
      rw [hr]
      simp only [Option.getD_some]
      intro hcontra
      rw [hroot] at hcontra
      exact absurd hcontra (by simp)
    have hnode1 : h.length ≤ (cloneN h a).1 := le_refl _
    have hlen1 : h.length ≤ (cloneN h a).2.length := by
      unfold cloneN
      rw [length_alloc]
      omega
    have hwalk := extends_removeWalkH (c :: cs) (cloneN h a).1 (cloneN h a).2 h
      hx1 hnode1
    have hphwalk := parentsHigh_removeWalkH (c :: cs) (cloneN h a).1
      (cloneN h a).2 h.length hph1 hnode1 hlen1
    rw [removeH]
    cases hres : (removeWalkH (c :: cs) (cloneN h a).1 (cloneN h a).2) with
    | mk onode h₂ =>
      rw [hres] at hwalk hphwalk
      have h2x : Extends h h₂ := hwalk.1
      have h2ph : ParentsHigh h.length h₂ := hphwalk
      cases onode with
      | none => simpa using h2x
      | some nd =>
        have h2nd : h.length ≤ nd := hwalk.2 nd rfl
        simpa using
          extends_removeEndH (cs.getLastD c) nd h₂ h ((c :: cs).length + 1)
            h2x h2ph h2nd

/-! ## Reads below the watermark are unchanged -/

theorem hasH_congr {h₀ h : Heap} (hx : Extends h₀ h) (hc : ClosedHeap h₀) :
    ∀ (v : List Char) (a : Nat), a < h₀.length → hasH v a h = hasH v a h₀ := by
  intro v
  induction v with
  | nil =>
    intro a ha
    rw [hasH, hasH, hx.2 a ha]
  | cons c cs ih =>
    intro a ha
    rw [hasH, hasH, hx.2 a ha]
    cases hg : getN h₀ a with
    | none => rfl
    | some n =>
      show (match lookupRef n.children c with
          | none => false
          | some b => hasH cs b h) =
        (match lookupRef n.children c with
          | none => false
          | some b => hasH cs b h₀)
      cases hl : lookupRef n.children c with
      | none => rfl
      | some b =>
        exact ih b (hc a n hg c b (mem_of_lookupRef hl))

theorem getWordsH_congr {h₀ h : Heap} (hx : Extends h₀ h) (hc : ClosedHeap h₀) :
    ∀ (fuel : Nat) (a : Nat), a < h₀.length →
      getWordsH fuel a h = getWordsH fuel a h₀ := by
  intro fuel
  induction fuel with
  | zero => intro a _; simp only [getWordsH]
  | succ f ih =>
    intro a ha
    rw [getWordsH, getWordsH, hx.2 a ha]
    cases hg : getN h₀ a with
    | none => rfl
    | some n =>
      have hlist : ∀ cs : List (Char × Nat), (∀ c b, (c, b) ∈ cs → b < h₀.length) →
          getWordsListH f cs h = getWordsListH f cs h₀ := by
        intro cs
        induction cs with
        | nil => intro _; simp only [getWordsListH]
        | cons hd rest ihl =>
          obtain ⟨c₀, b₀⟩ := hd
          intro hmem
          rw [getWordsListH, getWordsListH,
            ih b₀ (hmem c₀ b₀ (by simp)),
            ihl (fun c b hb => hmem c b (List.mem_cons_of_mem _ hb))]
      show ((if n.endOfWord then [n.word.getD []] else []) ++
          getWordsListH f n.children h) =
        ((if n.endOfWord then [n.word.getD []] else []) ++
          getWordsListH f n.children h₀)
      rw [hlist n.children (fun c b hb => hc a n hg c b hb)]

theorem searchH_congr {h₀ h : Heap} (hx : Extends h₀ h) (hc : ClosedHeap h₀)
    (fuel : Nat) :
    ∀ (q : List Char) (a : Nat), a < h₀.length →
      searchH fuel q a h = searchH fuel q a h₀ := by
  intro q
  induction q with
  | nil =>
    intro a ha
    rw [searchH, searchH]
    exact getWordsH_congr hx hc fuel a ha
  | cons c cs ih =>
    intro a ha
    rw [searchH, searchH, hx.2 a ha]
    cases hg : getN h₀ a with
    | none => rfl
    | some n =>
      show (match lookupRef n.children c with
          | none => []
          | some b => searchH fuel cs b h) =
        (match lookupRef n.children c with
          | none => []
          | some b => searchH fuel cs b h₀)
      cases hl : lookupRef n.children c with
      | none => rfl
      | some b =>
        exact ih b (hc a n hg c b (mem_of_lookupRef hl))

/-! ## Claim theorem: immutability of the input trie -/

/-- C1: neither `add` nor `remove` ever mutates an object of the input heap —
they only write to objects allocated during the call — so every `has` and
`search` answer on the input root `r` is unchanged after either call.  The
hypotheses say that `h` is a real JS heap (all children references resolve)
and that `r` is a trie root (`root: true`), which every value handed out by
the public API is. -/
theorem claim1_immutability (w : List Char) (h : Heap) (r : Nat) (n : Node)
    (hr : getN h r = some n) (hroot : n.root = true) (hc : ClosedHeap h) :
    (∀ a, a < h.length → getN (addH w r h).2 a = getN h a) ∧
      (∀ a, a < h.length → getN (removeH w r h).2 a = getN h a) ∧
      (∀ v, hasH v r (addH w r h).2 = hasH v r h) ∧
      (∀ v, hasH v r (removeH w r h).2 = hasH v r h) ∧
      (∀ fuel q, searchH fuel q r (addH w r h).2 = searchH fuel q r h) ∧
      (∀ fuel q, searchH fuel q r (removeH w r h).2 = searchH fuel q r h) := by
  have hxa : Extends h (addH w r h).2 := extends_addH w r h
  have hxr : Extends h (removeH w r h).2 := extends_removeH w r h hr hroot
  have hrlt : r < h.length := lt_length_of_getN hr
  exact ⟨hxa.2, hxr.2,
    fun v => hasH_congr hxa hc v r hrlt,
    fun v => hasH_congr hxr hc v r hrlt,
    fun fuel q => searchH_congr hxa hc fuel q r hrlt,
    fun fuel q => searchH_congr hxr hc fuel q r hrlt⟩

/-- A one-object heap holding an empty root trie. -/
def rootNode : Node := ⟨false, none, [], none, true⟩

/-- The heap containing only `rootNode` at address 0. -/
def heap1 : Heap := [rootNode]

theorem closedHeap_heap1 : ClosedHeap heap1 := by
  intro a n hg c b hmem
  cases a with
  | zero =>
    have : some rootNode = some n := hg
    cases this
    simp [rootNode] at hmem
  | succ k =>
    have : (none : Option Node) = some n := hg
    cases this

theorem claim1_immutability_witness :
    hasH "a".toList 0 (addH "a".toList 0 heap1).2 = hasH "a".toList 0 heap1 ∧
      hasH "a".toList 0 (removeH "a".toList 0 heap1).2 = hasH "a".toList 0 heap1 ∧
      searchH 5 [] 0 (addH "a".toList 0 heap1).2 = searchH 5 [] 0 heap1 ∧
      searchH 5 [] 0 (removeH "a".toList 0 heap1).2 = searchH 5 [] 0 heap1 :=
  ⟨(claim1_immutability "a".toList heap1 0 rootNode rfl rfl
      closedHeap_heap1).2.2.1 "a".toList,
    (claim1_immutability "a".toList heap1 0 rootNode rfl rfl
      closedHeap_heap1).2.2.2.1 "a".toList,
    (claim1_immutability "a".toList heap1 0 rootNode rfl rfl
      closedHeap_heap1).2.2.2.2.1 5 [],
    (claim1_immutability "a".toList heap1 0 rootNode rfl rfl
      closedHeap_heap1).2.2.2.2.2 5 []⟩

end TrieTs
